import Mathlib

/-!
# Verification of the execution-tracing engine of `weni` (agents-toolkit)

Shallow embedding of `src/weni/tracing/tracer.py` together with the
entry-point base classes `Tool` (`src/weni/tool/tool.py`), `PreProcessor`
(`src/weni/preprocessor/preprocessor.py`) and `Rule`
(`src/weni/rules/rule.py`).

Modelling conventions, fixed once for the whole file:

* Python runtime values are modelled by the inductive `PyVal`.  Python
  dicts are association lists in insertion order; assignment to a dict key
  (`d[k] = v`) is `dictInsert`, which replaces an existing key in place
  and otherwise appends.
* ISO-8601 timestamp strings are abstracted to rational instants
  (`Option ℚ`, with `Option.none` playing the role of the falsy empty
  string `""`); `datetime.utcnow()` becomes an explicit `now : ℚ`
  argument, and the elapsed wall-clock time observed around a call is an
  oracle value carried by the call itself.  Python's `round(x, 2)` on
  floats is modelled by rational rounding (`round2`); no claim in this
  development depends on the rounding mode.
* `max_depth` of the serializer is an `ℕ` (the source uses an `int` and
  tests `max_depth <= 0`; the engine only ever passes values descending
  from the default `3`, where the two coincide).
-/

/-- A Python runtime value, as far as the tracer observes it:
`None`, the primitive scalars, lists, tuples, string-keyed dicts
(association lists in insertion order), objects exposing `__dict__`
(reduced to their type name, which is all `_serialize_value` looks at),
and a fallback constructor for any other value carrying its `str(...)`
rendering. -/
inductive PyVal where
  | none : PyVal
  | bool (b : Bool) : PyVal
  | int (n : Int) : PyVal
  | float (q : ℚ) : PyVal
  | str (s : String) : PyVal
  | list (xs : List PyVal) : PyVal
  | tuple (xs : List PyVal) : PyVal
  | dict (entries : List (String × PyVal)) : PyVal
  | obj (typeName : String) : PyVal
  | other (rendering : String) : PyVal
deriving Repr

/-- Python dict assignment `d[k] = v`: replace the value of an existing
key in place, otherwise append the new key at the end (insertion order). -/
def dictInsert (entries : List (String × PyVal)) (k : String) (v : PyVal) :
    List (String × PyVal) :=
  if entries.any (fun p => p.1 == k) then
    entries.map (fun p => if p.1 = k then (p.1, v) else p)
  else
    entries ++ [(k, v)]

/-- `_serialize_value(value, max_depth=3, max_length=1000)` from
`src/weni/tracing/tracer.py`.  Branches in source order: depth exhausted,
`None`, primitive scalars (long strings truncated), list/tuple (tuples
normalized to lists, sequences longer than 50 cut to 50 plus a marker
element), dict (more than 50 keys cut to 50 plus a `"<truncated>"`
sentinel key), objects with `__dict__` (opaque type-name marker), and the
`str(value)` fallback. -/
def serializeValue : PyVal → Nat → Nat → PyVal
  | _, 0, _ => .str "<max_depth_exceeded>"
  | v, maxDepth + 1, maxLength =>
    match v with
    | .none => .none
    | .bool b => .bool b
    | .int n => .int n
    | .float q => .float q
    | .str s =>
      if maxLength < s.length then .str ((s.take maxLength) ++ "...<truncated>")
      else .str s
    | .list xs =>
      if 50 < xs.length then
        .list (((xs.take 50).map (fun x => serializeValue x maxDepth maxLength)) ++
          [.str ("<" ++ toString (xs.length - 50) ++ " more items>")])
      else
        .list (xs.map (fun x => serializeValue x maxDepth maxLength))
    | .tuple xs =>
      if 50 < xs.length then
        .list (((xs.take 50).map (fun x => serializeValue x maxDepth maxLength)) ++
          [.str ("<" ++ toString (xs.length - 50) ++ " more items>")])
      else
        .list (xs.map (fun x => serializeValue x maxDepth maxLength))
    | .dict entries =>
      if 50 < entries.length then
        .dict (dictInsert
          ((entries.take 50).map (fun p => (p.1, serializeValue p.2 maxDepth maxLength)))
          "<truncated>" (.str (toString (entries.length - 50) ++ " more keys")))
      else
        .dict (entries.map (fun p => (p.1, serializeValue p.2 maxDepth maxLength)))
    | .obj typeName => .str ("<" ++ typeName ++ ">")
    | .other rendering => .str (rendering.take maxLength)

/-- Loop body of `_extract_args` (`src/weni/tracing/tracer.py`): walk the
declared parameter names in order, keeping an index into the positional
arguments.  A parameter named `self` or `cls` is skipped (consuming one
positional argument when one remains); every other parameter consumes the
next positional argument if available, else is looked up in the keyword
arguments, else is omitted.  `result` is the dict being built
(`result[param_name] = _serialize_value(...)`). -/
def extractArgsGo (params : List String) (args : List PyVal)
    (kwargs : List (String × PyVal)) (argsIndex : Nat)
    (result : List (String × PyVal)) : List (String × PyVal) :=
  match params with
  | [] => result
  | p :: ps =>
    if p = "self" ∨ p = "cls" then
      extractArgsGo ps args kwargs
        (if argsIndex < args.length then argsIndex + 1 else argsIndex) result
    else if h : argsIndex < args.length then
      extractArgsGo ps args kwargs (argsIndex + 1)
        (dictInsert result p (serializeValue args[argsIndex] 3 1000))
    else
      match kwargs.lookup p with
      | Option.none => extractArgsGo ps args kwargs argsIndex result
      | some v =>
        extractArgsGo ps args kwargs argsIndex
          (dictInsert result p (serializeValue v 3 1000))

/-- `_extract_args(func, args, kwargs)` from `src/weni/tracing/tracer.py`,
with the callable abstracted to its declared parameter-name list (the
result of `inspect.signature`).  The `except` fallback for a failing
signature introspection is not reachable in this model, where every
callable has a well-defined parameter list. -/
def extractArgs (params : List String) (args : List PyVal)
    (kwargs : List (String × PyVal)) : List (String × PyVal) :=
  extractArgsGo params args kwargs 0 []

example :
    serializeValue (.list [.int 3, .str "a"]) 3 1000 =
      .list [.int 3, .str "a"] := rfl

example :
    extractArgs ["self", "a", "b"] [.obj "T", .int 1] [("b", .int 2)] =
      [("a", .int 1), ("b", .int 2)] := rfl

/-- `StepStatus` enum from `src/weni/tracing/tracer.py`. -/
inductive StepStatus where
  | started
  | completed
  | failed
deriving DecidableEq, Repr

/-- `ExecutionStep` dataclass from `src/weni/tracing/tracer.py`: one phase
event of one call, with the same fields and defaults. -/
structure ExecutionStep where
  class_name : String
  method_name : String
  status : StepStatus
  step_index : Nat := 0
  input_data : Option (List (String × PyVal)) := Option.none
  output_data : Option PyVal := Option.none
  error : Option String := Option.none
  duration_ms : Option ℚ := Option.none
deriving Repr

/-- `ExecutionTrace` dataclass from `src/weni/tracing/tracer.py`.
`started_at` abstracts the ISO-8601 string to a rational instant
(`Option.none` models the falsy default `""`). -/
structure ExecutionTrace where
  agent_name : String := ""
  started_at : Option ℚ := Option.none
  status : String := "pending"
  steps : List ExecutionStep := []
  error_summary : Option String := Option.none
deriving Repr

/-- A raised Python exception, reduced to what the wrapper observes:
`type(exc).__name__` and `str(exc)`. -/
structure Exc where
  typeName : String
  msg : String
deriving DecidableEq, Repr

mutual
/-- The body of a `@trace()`-decorated method, abstracted to its
observable interaction with the tracer: it either returns a value, raises
an exception, or makes a nested instrumented call on the same receiver
and continues (`callThen`: an exception from the nested call propagates;
`callCatch`: the body catches it and continues with the handler body). -/
inductive Body where
  | ret (v : PyVal) : Body
  | raiseExc (e : Exc) : Body
  | callThen (c : TCall) (onOk : Body) : Body
  | callCatch (c : TCall) (onOk : Body) (onExc : Body) : Body

/-- One instrumented call: the data the wrapper reads from the call site —
`self.__class__.__name__`, `func.__name__`, the declared parameter names,
the positional and keyword arguments, the two capture flags of `trace()`,
the elapsed wall-clock duration observed for this call (an environment
oracle), and the method body. -/
inductive TCall where
  | mk (cls meth : String) (params : List String) (args : List PyVal)
      (kwargs : List (String × PyVal)) (captureInput captureOutput : Bool)
      (dur : ℚ) (body : Body) : TCall
end

/-- The `ExecutionStep` appended by the wrapper before invoking the
wrapped function (`status=STARTED`, carrying the extracted input). -/
def mkStarted (cls meth : String) (idx : Nat)
    (inputData : Option (List (String × PyVal))) : ExecutionStep :=
  { class_name := cls, method_name := meth, status := .started,
    step_index := idx, input_data := inputData }

/-- The `ExecutionStep` appended on normal return (`status=COMPLETED`). -/
def mkCompleted (cls meth : String) (idx : Nat) (outputData : Option PyVal)
    (dur : ℚ) : ExecutionStep :=
  { class_name := cls, method_name := meth, status := .completed,
    step_index := idx, output_data := outputData, duration_ms := some dur }

/-- The `ExecutionStep` appended on exception (`status=FAILED`). -/
def mkFailed (cls meth : String) (idx : Nat) (errorMsg : String)
    (dur : ℚ) : ExecutionStep :=
  { class_name := cls, method_name := meth, status := .failed,
    step_index := idx, error := some errorMsg, duration_ms := some dur }

mutual
/-- The `wrapper` closure produced by `trace()` in
`src/weni/tracing/tracer.py`, lines 169–232, specialized to a receiver
whose tracer is initialized (so `_auto_init_tracer` is a no-op and
`self._execution_trace` is present; `runCall` below handles the general
receiver).  It computes `step_index` as the current step count, appends a
`STARTED` step (with the extracted input when `capture_input`), invokes
the body, then appends a `COMPLETED` step (with the serialized result
when `capture_output`) and returns the result unchanged — or, on an
exception, appends a `FAILED` step carrying
`f"{type(exc).__name__}: {str(exc)}"`, sets the trace status to
`"failed"` and `error_summary` to that message, and re-raises. -/
def runCallT : TCall → ExecutionTrace → Except Exc PyVal × ExecutionTrace
  | .mk cls meth params args kwargs captureInput captureOutput dur body, tr =>
    let idx := tr.steps.length
    let inputData :=
      if captureInput then some (extractArgs params (PyVal.obj cls :: args) kwargs)
      else Option.none
    let tr1 := { tr with steps := tr.steps ++ [mkStarted cls meth idx inputData] }
    match runBodyT body tr1 with
    | (.ok v, tr2) =>
      let outputData := if captureOutput then some (serializeValue v 3 1000) else Option.none
      (.ok v, { tr2 with steps := tr2.steps ++ [mkCompleted cls meth idx outputData dur] })
    | (.error e, tr2) =>
      (.error e,
        { tr2 with
          steps := tr2.steps ++ [mkFailed cls meth idx (e.typeName ++ ": " ++ e.msg) dur],
          status := "failed",
          error_summary := some (e.typeName ++ ": " ++ e.msg) })

/-- Runs a method body on an initialized receiver: nested instrumented
calls go through the wrapper (`runCallT`); an uncaught exception
propagates. -/
def runBodyT : Body → ExecutionTrace → Except Exc PyVal × ExecutionTrace
  | .ret v, tr => (.ok v, tr)
  | .raiseExc e, tr => (.error e, tr)
  | .callThen c onOk, tr =>
    match runCallT c tr with
    | (.ok _, tr1) => runBodyT onOk tr1
    | (.error e, tr1) => (.error e, tr1)
  | .callCatch c onOk onExc, tr =>
    match runCallT c tr with
    | (.ok _, tr1) => runBodyT onOk tr1
    | (.error _, tr1) => runBodyT onExc tr1
end

mutual
/-- Denotation of an instrumented call with the tracing machinery erased:
what the undecorated methods would do.  Used to state that the decorator
is transparent. -/
def plainCall : TCall → Except Exc PyVal
  | .mk _ _ _ _ _ _ _ _ body => plainBody body

/-- Denotation of a method body with the tracing machinery erased. -/
def plainBody : Body → Except Exc PyVal
  | .ret v => .ok v
  | .raiseExc e => .error e
  | .callThen c onOk =>
    match plainCall c with
    | .ok _ => plainBody onOk
    | .error e => .error e
  | .callCatch c onOk onExc =>
    match plainCall c with
    | .ok _ => plainBody onOk
    | .error _ => plainBody onExc
end

/-- The tracing-relevant state of one receiver object.  `hasCapability`
models whether `TracedAgent` is mixed in (equivalently, whether the
attributes `_auto_init_tracer`, `_get_trace_summary` and
`_tracer_initialized` exist on the instance); `trace` models the
`_execution_trace` attribute, whose presence is what
`hasattr(self, "_execution_trace")` tests (the bare class annotation
creates no attribute); `agentName` is the value
`self.AGENT_NAME or self.__class__.__name__`. -/
structure AgentState where
  hasCapability : Bool
  agentName : String
  tracerInitialized : Bool := false
  trace : Option ExecutionTrace := Option.none
deriving Repr

/-- The `ExecutionTrace` created by `_auto_init_tracer`. -/
def freshTrace (agentName : String) (startTime : ℚ) : ExecutionTrace :=
  { agent_name := agentName, started_at := some startTime,
    status := "running", steps := [], error_summary := Option.none }

/-- `TracedAgent._auto_init_tracer` from `src/weni/tracing/tracer.py`:
on first call creates the `ExecutionTrace` (status `"running"`, current
timestamp) and sets `_tracer_initialized`; later calls are no-ops. -/
def AgentState.autoInitTracer (st : AgentState) (now : ℚ) : AgentState :=
  if st.tracerInitialized then st
  else { st with trace := some (freshTrace st.agentName now), tracerInitialized := true }

/-- The `wrapper` closure of `trace()` on a general receiver
(`src/weni/tracing/tracer.py`, lines 169–175 plus the traced path):
invoke `_auto_init_tracer` when the receiver exposes it, then — if the
receiver still has no `_execution_trace` attribute — call straight
through to the original method (whose own nested decorated calls behave
the same way, so the whole run is the plain denotation and the state is
untouched); otherwise run the traced path. -/
def runCall (c : TCall) (now : ℚ) (st : AgentState) : Except Exc PyVal × AgentState :=
  let st1 := if st.hasCapability then st.autoInitTracer now else st
  match st1.trace with
  | Option.none => (plainCall c, st1)
  | some tr =>
    match runCallT c tr with
    | (r, tr2) => (r, { st1 with trace := some tr2 })

example :
    (runCallT (.mk "C" "m" ["self"] [] [] true true 5 (.ret (.int 1)))
        (freshTrace "A" 0)).2.steps =
      [mkStarted "C" "m" 0 (some []), mkCompleted "C" "m" 0 (some (.int 1)) 5] := rfl

example :
    (runCallT (.mk "C" "m" [] [] [] false false 5 (.raiseExc ⟨"ValueError", "boom"⟩))
        (freshTrace "A" 0)).2.error_summary = some "ValueError: boom" := rfl

/-- Python `round(x, 2)` on the modelled rational durations (the source
rounds floats; the rounding mode is irrelevant to every claim here). -/
def round2 (q : ℚ) : ℚ := (round (q * 100) : ℤ) / 100

/-- `round(step.duration_ms, 2) if step.duration_ms else 0` — the falsy
branch covers both a missing duration and a duration of exactly `0`. -/
def durationVal : Option ℚ → ℚ
  | Option.none => 0
  | some d => if d = 0 then 0 else round2 d

/-- One group of the summary (`steps_by_index[idx]` in
`TracedAgent._get_trace_summary`): a dict whose optional keys appear as
`Option` fields; an outer `some` means the key is present, the inner
value is what the source stored there (which may itself be `None`). -/
structure SummaryStep where
  cls : String
  method : String
  input : Option (Option (List (String × PyVal))) := Option.none
  output : Option (Option PyVal) := Option.none
  duration_ms : Option ℚ := Option.none
  error : Option (Option String) := Option.none
  status : Option String := Option.none
  order : Option Nat := Option.none
deriving Repr

/-- The per-step branch of the grouping loop in
`TracedAgent._get_trace_summary`: a `STARTED` step stores the input, a
`COMPLETED` step stores output, rounded duration and status `"ok"`, a
`FAILED` step stores error, rounded duration and status `"failed"`. -/
def applyStep (g : SummaryStep) (s : ExecutionStep) : SummaryStep :=
  match s.status with
  | .started => { g with input := some s.input_data }
  | .completed =>
    { g with output := some s.output_data,
             duration_ms := some (durationVal s.duration_ms),
             status := some "ok" }
  | .failed =>
    { g with error := some s.error,
             duration_ms := some (durationVal s.duration_ms),
             status := some "failed" }

/-- `idx in steps_by_index` for the insertion-ordered dict of groups. -/
def hasKey (gs : List (Nat × SummaryStep)) (i : Nat) : Bool :=
  gs.any (fun p => p.1 == i)

/-- In-place update of the group stored under key `i`. -/
def updateKey (gs : List (Nat × SummaryStep)) (i : Nat) (s : ExecutionStep) :
    List (Nat × SummaryStep) :=
  gs.map (fun p => if p.1 = i then (p.1, applyStep p.2 s) else p)

/-- The grouping loop of `TracedAgent._get_trace_summary`: for each raw
step, create the group for its `step_index` on first sight (holding the
step's class and method) and then apply the per-status update. -/
def buildGroupsGo (steps : List ExecutionStep) (acc : List (Nat × SummaryStep)) :
    List (Nat × SummaryStep) :=
  match steps with
  | [] => acc
  | s :: rest =>
    let acc1 :=
      if hasKey acc s.step_index then acc
      else acc ++ [(s.step_index, { cls := s.class_name, method := s.method_name })]
    buildGroupsGo rest (updateKey acc1 s.step_index s)

/-- `steps_by_index` after the grouping loop, starting from the empty dict. -/
def buildGroups (steps : List ExecutionStep) : List (Nat × SummaryStep) :=
  buildGroupsGo steps []

/-- The emission loop of `TracedAgent._get_trace_summary`: walk the group
keys in ascending order; a group that never received a `"status"` key
(only a `STARTED` event was seen) is skipped outright, every other group
gets the next 1-based `order` value and is appended to the summary.  The
`Option.none` lookup branch models the unreachable `KeyError` (every
emitted key is a key of `gs`). -/
def emitKeys (keys : List Nat) (gs : List (Nat × SummaryStep)) (order : Nat) :
    List SummaryStep :=
  match keys with
  | [] => []
  | i :: rest =>
    match gs.lookup i with
    | Option.none => emitKeys rest gs order
    | some g =>
      if g.status.isSome then { g with order := some order } :: emitKeys rest gs (order + 1)
      else emitKeys rest gs order

/-- The summary dict built by `TracedAgent._get_trace_summary`
(`trace_data` in the source); `error_summary` is present exactly when the
stored `error_summary` is truthy. -/
structure TraceSummary where
  agent_name : String
  started_at : Option ℚ
  completed_at : ℚ
  total_duration_ms : ℚ
  status : String
  total_steps : Nat
  steps : List SummaryStep
  error_summary : Option String := Option.none
deriving Repr

/-- `TracedAgent._get_trace_summary` from `src/weni/tracing/tracer.py`,
lines 309–381.  Returns `Option.none` for the `{}` the source returns
when the receiver has no `_execution_trace`.  `completed_at` and the
total duration are computed from the explicit `now`; a trace with a falsy
or unparsable `started_at` (modelled by `Option.none`) reports duration
`0`.  The stored status `"running"` is normalized to `"completed"`; any
other stored status (in particular `"failed"`) passes through. -/
def getTraceSummary (st : AgentState) (now : ℚ) : Option TraceSummary :=
  match st.trace with
  | Option.none => Option.none
  | some tr =>
    let gs := buildGroups tr.steps
    let summary := emitKeys (List.insertionSort (· ≤ ·) (gs.map Prod.fst)) gs 1
    some
      { agent_name := tr.agent_name,
        started_at := tr.started_at,
        completed_at := now,
        total_duration_ms :=
          match tr.started_at with
          | some t => round2 ((now - t) * 1000)
          | Option.none => 0,
        status := if tr.status = "running" then "completed" else tr.status,
        total_steps := summary.length,
        steps := summary,
        error_summary :=
          match tr.error_summary with
          | some e => if e = "" then Option.none else some e
          | Option.none => Option.none }

/-- The summary method as a state transformer: the source's
`_get_trace_summary` reads the trace and writes only fresh local
structures (`steps_by_index`, `step_data`, `summary`, `trace_data`), so
the receiver's state comes back unchanged. -/
def getTraceSummaryCall (st : AgentState) (now : ℚ) :
    Option TraceSummary × AgentState :=
  (getTraceSummary st now, st)

example :
    (getTraceSummary
        ⟨true, "A", true,
          some ((runCallT (.mk "C" "m" [] [] [] false true 0 (.ret (.int 1)))
            (freshTrace "A" 0)).2)⟩ 7).map TraceSummary.steps =
      some [{ cls := "C", method := "m", input := some Option.none,
              output := some (some (.int 1)), duration_ms := some 0,
              status := some "ok", order := some 1 }] := rfl

/-- The `"input"` value of a summary step as a Python value (the stored
`input_data`, which may be `None`). -/
def inputToPy : Option (List (String × PyVal)) → PyVal
  | some l => .dict l
  | Option.none => .none

/-- A summary step rendered as the Python dict the source builds (keys
present exactly for the fields the grouping loop assigned). -/
def summaryStepToPy (g : SummaryStep) : PyVal :=
  .dict ([("class", .str g.cls), ("method", .str g.method)]
    ++ (match g.input with
        | some v => [("input", inputToPy v)]
        | Option.none => [])
    ++ (match g.output with
        | some v => [("output", v.getD .none)]
        | Option.none => [])
    ++ (match g.duration_ms with
        | some q => [("duration_ms", .float q)]
        | Option.none => [])
    ++ (match g.error with
        | some v => [("error", match v with | some s => PyVal.str s | Option.none => PyVal.none)]
        | Option.none => [])
    ++ (match g.status with
        | some s => [("status", .str s)]
        | Option.none => [])
    ++ (match g.order with
        | some o => [("order", .int o)]
        | Option.none => []))

/-- The summary as the Python dict value other code receives
(`Option.none`, the no-trace case, is the `{}` the source returns; the
abstracted `started_at`/`completed_at` instants stand for their ISO-8601
strings). -/
def summaryToPyVal : Option TraceSummary → PyVal
  | Option.none => .dict []
  | some ts =>
    .dict ([("agent_name", .str ts.agent_name),
            ("started_at", match ts.started_at with
                           | some t => PyVal.float t
                           | Option.none => PyVal.str ""),
            ("completed_at", .float ts.completed_at),
            ("total_duration_ms", .float ts.total_duration_ms),
            ("status", .str ts.status),
            ("total_steps", .int ts.total_steps),
            ("steps", .list (ts.steps.map summaryStepToPy))]
      ++ (match ts.error_summary with
          | some e => [("error_summary", PyVal.str e)]
          | Option.none => []))

/-- `TracedAgent._inject_trace(data)` from `src/weni/tracing/tracer.py`,
lines 383–387, as a call on the heap: when `data` is a dict and the
tracer is initialized the source executes
`data["_execution_trace"] = self._get_trace_summary()` — an **in-place
mutation of the argument** — and then `return data` returns that same
object.  The result pair is `(returned value, value observed through the
caller's original reference after the call)`; because the return is the
argument object itself, the two components are always equal. -/
def injectTraceCall (st : AgentState) (now : ℚ) (data : PyVal) : PyVal × PyVal :=
  match data with
  | .dict entries =>
    if st.tracerInitialized then
      let d := PyVal.dict
        (dictInsert entries "_execution_trace" (summaryToPyVal (getTraceSummary st now)))
      (d, d)
    else (data, data)
  | _ => (data, data)

/-- `type(v)` as printed inside the `TypeError` message of
`Tool.__new__`. -/
def pyTypeName : PyVal → String
  | .none => "NoneType"
  | .bool _ => "bool"
  | .int _ => "int"
  | .float _ => "float"
  | .str _ => "str"
  | .list _ => "list"
  | .tuple _ => "tuple"
  | .dict _ => "dict"
  | .obj typeName => typeName
  | .other _ => "object"

/-- `isinstance(v, dict)`. -/
def isDictB : PyVal → Bool
  | .dict _ => true
  | _ => false

/-- `Tool.__new__` from `src/weni/tool/tool.py`, lines 41–48: unpack
`result, format = instance.execute(context)` (abstracted to the two
components), raise `TypeError` unless `format` is a dict, and return the
pair.  The receiver's tracing state `st` is in scope on `instance` but —
as the definition shows — is never consulted. -/
def toolNew (st : AgentState) (resultv : PyVal) (formatv : PyVal) :
    Except Exc (PyVal × PyVal) :=
  if isDictB formatv then .ok (resultv, formatv)
  else .error
    { typeName := "TypeError",
      msg := "Execute method must return a dictionary, got <class '" ++
        pyTypeName formatv ++ "'>" }

/-- `ProcessedData` from `src/weni/preprocessor/preprocessor.py`. -/
structure ProcessedData where
  urn : String
  data : PyVal
deriving Repr

/-- `PreProcessor.__new__` from `src/weni/preprocessor/preprocessor.py`,
lines 33–35: `return instance.process(context)` — the process result is
returned as-is; the receiver's tracing state is never consulted. -/
def preProcessorNew (st : AgentState) (processResult : ProcessedData) : ProcessedData :=
  processResult

/-- `Rule._wrap_execute_result` from `src/weni/rules/rule.py`, lines
43–66: when the instance exposes `_get_trace_summary` and
`_tracer_initialized` (both come with the `TracedAgent` mixin, modelled
by `hasCapability`) and the tracer is initialized, return
`(result, self._get_trace_summary())`; otherwise `(result, {})`. -/
def ruleWrapExecuteResult (st : AgentState) (now : ℚ) (result : Bool) :
    Bool × PyVal :=
  if st.hasCapability then
    if st.tracerInitialized then (result, summaryToPyVal (getTraceSummary st now))
    else (result, .dict [])
  else (result, .dict [])

/-- Number of `STARTED` steps carrying `step_index = i`. -/
def startedCount (i : Nat) (l : List ExecutionStep) : Nat :=
  l.countP (fun s => s.status == .started && s.step_index == i)

/-- `True` for the two terminal statuses. -/
def isTerminalB (s : ExecutionStep) : Bool :=
  s.status == .completed || s.status == .failed

/-- Number of terminal (`COMPLETED` or `FAILED`) steps carrying
`step_index = i`. -/
def termCount (i : Nat) (l : List ExecutionStep) : Nat :=
  l.countP (fun s => isTerminalB s && s.step_index == i)

/-- The `FAILED` steps of a step list, in order. -/
def failedSteps (l : List ExecutionStep) : List ExecutionStep :=
  l.filter (fun s => s.status == .failed)

mutual
/-- The wrapper never changes the outcome of a call: the result (or the
re-raised exception) of the traced run is the plain denotation. -/
theorem runCallT_fst : ∀ (c : TCall) (tr : ExecutionTrace),
    (runCallT c tr).1 = plainCall c
  | .mk cls meth params args kwargs ci co dur body, tr => by
    have hb := runBodyT_fst body
      { tr with steps := tr.steps ++ [mkStarted cls meth tr.steps.length
          (if ci then some (extractArgs params (PyVal.obj cls :: args) kwargs)
           else Option.none)] }
    simp only [runCallT, plainCall]
    split
    next v tr2 heq => rw [heq] at hb; exact hb.symm ▸ rfl
    next e tr2 heq => rw [heq] at hb; exact hb.symm ▸ rfl

/-- Running a body on an initialized receiver yields the plain
denotation as its outcome, whatever the trace state. -/
theorem runBodyT_fst : ∀ (b : Body) (tr : ExecutionTrace),
    (runBodyT b tr).1 = plainBody b
  | .ret _, _ => rfl
  | .raiseExc _, _ => rfl
  | .callThen c onOk, tr => by
    have hc := runCallT_fst c tr
    simp only [runBodyT, plainBody]
    split
    next v tr1 heq =>
      rw [heq] at hc
      rw [← hc]
      exact runBodyT_fst onOk tr1
    next e tr1 heq => rw [heq] at hc; rw [← hc]
  | .callCatch c onOk onExc, tr => by
    have hc := runCallT_fst c tr
    simp only [runBodyT, plainBody]
    split
    next v tr1 heq =>
      rw [heq] at hc
      rw [← hc]
      exact runBodyT_fst onOk tr1
    next e tr1 heq =>
      rw [heq] at hc
      rw [← hc]
      exact runBodyT_fst onExc tr1
end

/-- C9: for every list of more than 50 elements serialized with default
bounds (`max_depth = 3`, `max_length = 1000`), the result keeps exactly
the first 50 elements, serialized in order at depth `2` (integers are
returned unchanged at that depth), followed by the single marker string
`"<N more items>"` where `N` is the number of dropped elements; a tuple
of the same elements is normalized to exactly the same list. -/
theorem serialize_long_list (xs : List PyVal) (h : 50 < xs.length) :
    serializeValue (.list xs) 3 1000 =
      .list (((xs.take 50).map (fun v => serializeValue v 2 1000)) ++
        [.str ("<" ++ toString (xs.length - 50) ++ " more items>")]) ∧
    (∀ n : Int, serializeValue (.int n) 2 1000 = .int n) ∧
    serializeValue (.tuple xs) 3 1000 = serializeValue (.list xs) 3 1000 := by
  refine ⟨?_, fun n => rfl, ?_⟩ <;> simp [serializeValue, h]

/-- Witness for C9: the 100-integer list of the spec example; the marker
is `"<50 more items>"`. -/
theorem serialize_long_list_witness :
    50 < ((List.range 100).map (fun k => PyVal.int k)).length ∧
    serializeValue (.list ((List.range 100).map (fun k => PyVal.int k))) 3 1000 =
      .list ((((List.range 100).map (fun k => PyVal.int k)).take 50).map
          (fun v => serializeValue v 2 1000) ++
        [.str ("<" ++ toString (((List.range 100).map (fun k => PyVal.int k)).length - 50)
          ++ " more items>")]) :=
  ⟨by decide,
   (serialize_long_list ((List.range 100).map (fun k => PyVal.int k)) (by decide)).1⟩

/-- Looking a declared name up in the keyword dict built from the full
declared-name list finds the assigned value. -/
theorem lookup_map_self (f : String → PyVal) :
    ∀ (ps : List String) (p : String), p ∈ ps →
      (ps.map (fun q => (q, f q))).lookup p = some (f p) := by
  intro ps
  induction ps with
  | nil => intro p hp; cases hp
  | cons q rest ih =>
    intro p hp
    by_cases hpq : p = q
    · subst hpq
      simp [List.lookup]
    · rcases List.mem_cons.mp hp with h1 | h1
      · exact absurd h1 hpq
      · have hbeq : (p == q) = false := beq_eq_false_iff_ne.mpr hpq
        simpa [List.lookup, hbeq] using ih p h1

/-- A run of the extraction loop that consumes the assigned values
purely positionally equals the fold of dict inserts over the declared
names. -/
theorem extractArgsGo_positional (f : String → PyVal) :
    ∀ (ps : List String) (args : List PyVal) (i : Nat) (acc : List (String × PyVal)),
      (∀ p ∈ ps, p ≠ "self" ∧ p ≠ "cls") → args.drop i = ps.map f →
      extractArgsGo ps args [] i acc =
        ps.foldl (fun a p => dictInsert a p (serializeValue (f p) 3 1000)) acc := by
  intro ps
  induction ps with
  | nil => intro args i acc _ _; rfl
  | cons p rest ih =>
    intro args i acc hps hdrop
    have hlen : i < args.length := by
      by_contra hge
      rw [List.drop_eq_nil_of_le (Nat.le_of_not_lt hge)] at hdrop
      exact List.cons_ne_nil _ _ hdrop.symm
    have hcons : args.drop i = args[i] :: args.drop (i + 1) :=
      List.drop_eq_getElem_cons hlen
    rw [hdrop, List.map_cons] at hcons
    injection hcons with hhead htail
    have hp := hps p (List.mem_cons_self p rest)
    rw [extractArgsGo]
    simp only [hp.1, hp.2, or_self, if_false, dif_pos hlen]
    rw [← hhead]
    exact ih args (i + 1) _ (fun q hq => hps q (List.mem_cons_of_mem p hq)) htail.symm

/-- A run of the extraction loop past the end of the positional
arguments resolves every declared name through the keyword dict and
equals the same fold. -/
theorem extractArgsGo_keyword (f : String → PyVal) (full : List String) :
    ∀ (ps : List String) (args : List PyVal) (i : Nat) (acc : List (String × PyVal)),
      (∀ p ∈ ps, p ≠ "self" ∧ p ≠ "cls") → (∀ p ∈ ps, p ∈ full) → args.length ≤ i →
      extractArgsGo ps args (full.map fun q => (q, f q)) i acc =
        ps.foldl (fun a p => dictInsert a p (serializeValue (f p) 3 1000)) acc := by
  intro ps
  induction ps with
  | nil => intro args i acc _ _ _; rfl
  | cons p rest ih =>
    intro args i acc hps hfull hge
    have hp := hps p (List.mem_cons_self p rest)
    have hnotlt : ¬ i < args.length := Nat.not_lt.mpr hge
    rw [extractArgsGo]
    simp only [hp.1, hp.2, or_self, if_false, dif_neg hnotlt,
      lookup_map_self f full p (hfull p (List.mem_cons_self p rest))]
    exact ih args i _ (fun q hq => hps q (List.mem_cons_of_mem p hq))
      (fun q hq => hfull q (List.mem_cons_of_mem p hq)) hge

/-- C8: calling an instrumented method with every argument passed as a
keyword records exactly the same input dict as calling it with the
equivalent arguments passed positionally: with declared parameters
`self :: ps` (none of the remaining names being the receiver names
`self`/`cls`) and the assignment `f`, the extractor yields the same
name-to-serialized-value mapping either way, with the receiver skipped. -/
theorem extract_args_keyword_eq_positional (ps : List String) (f : String → PyVal)
    (selfv : PyVal) (h : ∀ p ∈ ps, p ≠ "self" ∧ p ≠ "cls") :
    extractArgs ("self" :: ps) (selfv :: ps.map f) [] =
      extractArgs ("self" :: ps) [selfv] (ps.map fun p => (p, f p)) := by
  unfold extractArgs
  rw [extractArgsGo, extractArgsGo,
    if_pos (Or.inl rfl : ("self" : String) = "self" ∨ ("self" : String) = "cls"),
    if_pos (Or.inl rfl : ("self" : String) = "self" ∨ ("self" : String) = "cls"),
    if_pos (by simp : (0 : Nat) < (selfv :: ps.map f).length),
    if_pos (by simp : (0 : Nat) < [selfv].length),
    extractArgsGo_positional f ps (selfv :: ps.map f) (0 + 1) [] h (by simp),
    extractArgsGo_keyword f ps ps [selfv] (0 + 1) [] h (fun p hp => hp) (by simp)]

/-- Witness for C8: two named parameters after `self`, assigned
`x ↦ 1, y ↦ "v"`; keyword and positional calls record the same dict. -/
theorem extract_args_keyword_eq_positional_witness :
    (∀ p ∈ ["x", "y"], p ≠ "self" ∧ p ≠ "cls") ∧
    extractArgs ["self", "x", "y"]
        (PyVal.obj "T" ::
          (["x", "y"].map (fun p => if p = "x" then PyVal.int 1 else PyVal.str "v"))) [] =
      extractArgs ["self", "x", "y"] [PyVal.obj "T"]
        (["x", "y"].map fun p => (p, if p = "x" then PyVal.int 1 else PyVal.str "v")) :=
  ⟨by decide,
   extract_args_keyword_eq_positional ["x", "y"]
     (fun p => if p = "x" then PyVal.int 1 else PyVal.str "v") (PyVal.obj "T") (by decide)⟩

/-- C6: on a receiver that does not mix in the tracer capability (no
`_auto_init_tracer` hook and no `_execution_trace` attribute), a
`@trace()`-decorated call is transparent: it returns exactly the plain
denotation of the method, leaves the receiver's state untouched (so no
steps are recorded), and no summary is observable (`_get_trace_summary`
would return the empty dict). -/
theorem trace_decorator_transparent (c : TCall) (now : ℚ) (st : AgentState)
    (h1 : st.hasCapability = false) (h2 : st.trace = Option.none) :
    runCall c now st = (plainCall c, st) ∧ getTraceSummary st now = Option.none := by
  constructor
  · simp [runCall, h1, h2]
  · simp [getTraceSummary, h2]

/-- Witness for C6 at a concrete untraced receiver and call. -/
theorem trace_decorator_transparent_witness :
    (AgentState.hasCapability ⟨false, "X", false, Option.none⟩ = false) ∧
    runCall (.mk "C" "m" ["self"] [] [] true true 0 (.ret (.int 7))) 0
        ⟨false, "X", false, Option.none⟩ =
      (plainCall (.mk "C" "m" ["self"] [] [] true true 0 (.ret (.int 7))),
       ⟨false, "X", false, Option.none⟩) ∧
    getTraceSummary ⟨false, "X", false, Option.none⟩ 0 = Option.none := by
  have h := trace_decorator_transparent
    (.mk "C" "m" ["self"] [] [] true true 0 (.ret (.int 7))) 0
    ⟨false, "X", false, Option.none⟩ rfl rfl
  exact ⟨rfl, h.1, h.2⟩

/-- C5: an instrumented method that raises `ValueError("boom")` records a
`FAILED` step with error `"ValueError: boom"` right after its `STARTED`
step, sets the trace's top-level status to `"failed"` and its
`error_summary` to the same string, and re-raises the very same
exception; and in general the wrapped call's outcome (return value or
raised exception) is exactly the plain denotation of the method body, so
the wrapped call raises if and only if the original method raises. -/
theorem trace_failure_recorded (cls meth : String) (params : List String)
    (args : List PyVal) (kwargs : List (String × PyVal)) (ci co : Bool)
    (dur : ℚ) (tr : ExecutionTrace) :
    (runCallT (.mk cls meth params args kwargs ci co dur
        (.raiseExc ⟨"ValueError", "boom"⟩)) tr).1 =
      .error ⟨"ValueError", "boom"⟩ ∧
    (runCallT (.mk cls meth params args kwargs ci co dur
        (.raiseExc ⟨"ValueError", "boom"⟩)) tr).2.steps =
      tr.steps ++
        [mkStarted cls meth tr.steps.length
          (if ci then some (extractArgs params (PyVal.obj cls :: args) kwargs)
           else Option.none),
         mkFailed cls meth tr.steps.length "ValueError: boom" dur] ∧
    (runCallT (.mk cls meth params args kwargs ci co dur
        (.raiseExc ⟨"ValueError", "boom"⟩)) tr).2.status = "failed" ∧
    (runCallT (.mk cls meth params args kwargs ci co dur
        (.raiseExc ⟨"ValueError", "boom"⟩)) tr).2.error_summary =
      some "ValueError: boom" ∧
    (∀ (b : Body) (tr2 : ExecutionTrace),
      (runCallT (.mk cls meth params args kwargs ci co dur b) tr2).1 = plainBody b) := by
  refine ⟨rfl, ?_, rfl, rfl, fun b tr2 => runCallT_fst _ tr2⟩
  simp [runCallT, runBodyT, mkStarted, mkFailed]

/-- C10: building the summary is read-only on the trace: the method
returns the receiver's state unchanged, and the reported `agent_name`,
`started_at`, `status`, `total_steps`, `steps` and `error_summary` do not
depend on the time of the call — repeated summary calls on an unchanged
trace report the same values for all of them (only `completed_at` and
`total_duration_ms` are recomputed from the clock). -/
theorem summary_read_only (st : AgentState) (now1 now2 : ℚ) :
    (getTraceSummaryCall st now1).2 = st ∧
    (getTraceSummary st now1).map TraceSummary.agent_name =
      (getTraceSummary st now2).map TraceSummary.agent_name ∧
    (getTraceSummary st now1).map TraceSummary.started_at =
      (getTraceSummary st now2).map TraceSummary.started_at ∧
    (getTraceSummary st now1).map TraceSummary.status =
      (getTraceSummary st now2).map TraceSummary.status ∧
    (getTraceSummary st now1).map TraceSummary.total_steps =
      (getTraceSummary st now2).map TraceSummary.total_steps ∧
    (getTraceSummary st now1).map TraceSummary.steps =
      (getTraceSummary st now2).map TraceSummary.steps ∧
    (getTraceSummary st now1).map TraceSummary.error_summary =
      (getTraceSummary st now2).map TraceSummary.error_summary := by
  refine ⟨rfl, ?_⟩
  cases h : st.trace <;> simp [getTraceSummary, h]

/-- Counterexample to C3 as stated: `_inject_trace` does **not** return a
copy leaving the original mapping unchanged — with an initialized tracer,
the dict the caller passed in is itself mutated (observed value after the
call differs from the value passed in), and the returned object is that
same mutated dict. -/
theorem inject_trace_no_copy_counterexample :
    (injectTraceCall ⟨true, "A", true, some (freshTrace "A" 0)⟩ 0 (.dict [])).2 ≠
      .dict [] ∧
    (injectTraceCall ⟨true, "A", true, some (freshTrace "A" 0)⟩ 0 (.dict [])).1 =
      (injectTraceCall ⟨true, "A", true, some (freshTrace "A" 0)⟩ 0 (.dict [])).2 := by
  constructor
  · simp [injectTraceCall, dictInsert]
  · rfl

/-- C3 (amended): for a mapping `data` with an initialized trace,
`_inject_trace` stores the summary under `"_execution_trace"` **in
place** and returns the same object, so the caller's original mapping is
updated to the returned value rather than left unchanged; for a
non-mapping `data`, or when no trace is initialized, `data` comes back
unchanged. -/
theorem inject_trace_in_place (st : AgentState) (now : ℚ)
    (entries : List (String × PyVal)) (data : PyVal) :
    (injectTraceCall st now data).1 = (injectTraceCall st now data).2 ∧
    (st.tracerInitialized = true →
      injectTraceCall st now (.dict entries) =
        (.dict (dictInsert entries "_execution_trace"
            (summaryToPyVal (getTraceSummary st now))),
         .dict (dictInsert entries "_execution_trace"
            (summaryToPyVal (getTraceSummary st now))))) ∧
    (st.tracerInitialized = false →
      injectTraceCall st now (.dict entries) = (.dict entries, .dict entries)) ∧
    (isDictB data = false → injectTraceCall st now data = (data, data)) := by
  refine ⟨?_, ?_, ?_, ?_⟩
  · cases data <;> simp [injectTraceCall] <;> by_cases hinit : st.tracerInitialized <;>
      simp [hinit]
  · intro h; simp [injectTraceCall, h]
  · intro h; simp [injectTraceCall, h]
  · intro h; cases data <;> simp_all [injectTraceCall, isDictB]

/-- Witness for C3 (amended) at a concrete initialized receiver. -/
theorem inject_trace_in_place_witness :
    (AgentState.tracerInitialized ⟨true, "A", true, some (freshTrace "A" 0)⟩ = true) ∧
    injectTraceCall ⟨true, "A", true, some (freshTrace "A" 0)⟩ 0 (.dict []) =
      (.dict (dictInsert [] "_execution_trace"
          (summaryToPyVal (getTraceSummary ⟨true, "A", true, some (freshTrace "A" 0)⟩ 0))),
       .dict (dictInsert [] "_execution_trace"
          (summaryToPyVal (getTraceSummary ⟨true, "A", true, some (freshTrace "A" 0)⟩ 0)))) :=
  ⟨rfl,
   (inject_trace_in_place ⟨true, "A", true, some (freshTrace "A" 0)⟩ 0 [] (.dict [])).2.1 rfl⟩

/-- C1: evaluation of the three entry points at a traced receiver
(capability present, tracer initialized, trace in hand).  `Tool.__new__`
and `PreProcessor.__new__` return their ordinary shape untouched — no
check of the tracing state and no trace summary appended — while only
`Rule._wrap_execute_result` performs the capability-and-initialized check
and fills the (always present) second tuple slot with the summary,
returning `(result, {})` on an untraced receiver. -/
theorem entry_points_ignore_trace :
    toolNew ⟨true, "T", true, some (freshTrace "T" 0)⟩
        (.dict [("processed", .bool true)]) (.dict []) =
      .ok (.dict [("processed", .bool true)], .dict []) ∧
    preProcessorNew ⟨true, "T", true, some (freshTrace "T" 0)⟩ ⟨"urn", .dict []⟩ =
      ⟨"urn", .dict []⟩ ∧
    ruleWrapExecuteResult ⟨true, "T", true, some (freshTrace "T" 0)⟩ 0 true =
      (true, summaryToPyVal (getTraceSummary ⟨true, "T", true, some (freshTrace "T" 0)⟩ 0)) ∧
    ruleWrapExecuteResult ⟨false, "T", false, Option.none⟩ 0 true = (true, .dict []) := by
  exact ⟨rfl, rfl, rfl, rfl⟩

/-- The error-summary/status invariant actually maintained by the
wrapper: `error_summary` always equals the error string of the **most
recent** `FAILED` step (the wrapper assigns it unconditionally on every
failure), and the status is `"failed"` exactly when some step has
failed. -/
def errInv (tr : ExecutionTrace) : Prop :=
  tr.error_summary = ((failedSteps tr.steps).getLast?).bind ExecutionStep.error ∧
  tr.status = (if (failedSteps tr.steps).isEmpty then "running" else "failed")

theorem failedSteps_append (l1 l2 : List ExecutionStep) :
    failedSteps (l1 ++ l2) = failedSteps l1 ++ failedSteps l2 := by
  simp [failedSteps]

/-- Appending a non-`FAILED` step (the wrapper's `STARTED` and
`COMPLETED` appends) preserves the invariant. -/
theorem errInv_append_nonfailed (tr : ExecutionTrace) (s : ExecutionStep)
    (h : s.status ≠ .failed) (hP : errInv tr) :
    errInv { tr with steps := tr.steps ++ [s] } := by
  have hb : (s.status == StepStatus.failed) = false := beq_eq_false_iff_ne.mpr h
  have hs : failedSteps [s] = [] := by
    simp [failedSteps, List.filter, hb]
  have hfs : failedSteps (tr.steps ++ [s]) = failedSteps tr.steps := by
    rw [failedSteps_append, hs, List.append_nil]
  constructor
  · show tr.error_summary =
      ((failedSteps (tr.steps ++ [s])).getLast?).bind ExecutionStep.error
    rw [hfs]; exact hP.1
  · show tr.status =
      (if (failedSteps (tr.steps ++ [s])).isEmpty then "running" else "failed")
    rw [hfs]; exact hP.2

/-- The wrapper's exception branch (append a `FAILED` step, set status
`"failed"`, overwrite `error_summary` with that step's error string)
establishes the invariant outright. -/
theorem errInv_append_failed (tr : ExecutionTrace) (cls meth : String)
    (idx : Nat) (msg : String) (dur : ℚ) :
    errInv
      { tr with
        steps := tr.steps ++ [mkFailed cls meth idx msg dur]
        status := "failed"
        error_summary := some msg } := by
  have hs : failedSteps [mkFailed cls meth idx msg dur] =
      [mkFailed cls meth idx msg dur] := by
    simp [failedSteps, List.filter, mkFailed]
  constructor
  · show (some msg : Option String) =
      ((failedSteps (tr.steps ++ [mkFailed cls meth idx msg dur])).getLast?).bind
        ExecutionStep.error
    rw [failedSteps_append, hs, List.getLast?_append_cons]
    rfl
  · show ("failed" : String) =
      (if (failedSteps (tr.steps ++ [mkFailed cls meth idx msg dur])).isEmpty
       then "running" else "failed")
    rw [failedSteps_append, hs]
    simp

mutual
/-- The wrapper preserves the error-summary/status invariant. -/
theorem errInv_runCallT : ∀ (c : TCall) (tr : ExecutionTrace),
    errInv tr → errInv (runCallT c tr).2
  | .mk cls meth params args kwargs ci co dur body, tr => fun h => by
    have h1 : errInv { tr with steps := tr.steps ++ [mkStarted cls meth tr.steps.length
        (if ci then some (extractArgs params (PyVal.obj cls :: args) kwargs)
         else Option.none)] } :=
      errInv_append_nonfailed tr _ (by simp [mkStarted]) h
    have hb := errInv_runBodyT body _ h1
    simp only [runCallT]
    split
    next v tr2 heq =>
      rw [heq] at hb
      exact errInv_append_nonfailed tr2 _ (by simp [mkCompleted]) hb
    next e tr2 heq =>
      exact errInv_append_failed tr2 cls meth tr.steps.length (e.typeName ++ ": " ++ e.msg) dur

/-- Running a body preserves the error-summary/status invariant. -/
theorem errInv_runBodyT : ∀ (b : Body) (tr : ExecutionTrace),
    errInv tr → errInv (runBodyT b tr).2
  | .ret _, _ => fun h => h
  | .raiseExc _, _ => fun h => h
  | .callThen c onOk, tr => fun h => by
    have hc := errInv_runCallT c tr h
    simp only [runBodyT]
    split
    next v tr1 heq => rw [heq] at hc; exact errInv_runBodyT onOk tr1 hc
    next e tr1 heq => rw [heq] at hc; exact hc
  | .callCatch c onOk onExc, tr => fun h => by
    have hc := errInv_runCallT c tr h
    simp only [runBodyT]
    split
    next v tr1 heq => rw [heq] at hc; exact errInv_runBodyT onOk tr1 hc
    next e tr1 heq => rw [heq] at hc; exact errInv_runBodyT onExc tr1 hc
end

/-- C2 (amended): after any sequence of instrumented calls from a freshly
initialized trace, `error_summary` equals the error string of the **most
recent** `FAILED` step — each failure overwrites it, so with two or more
failures it holds the last failure's message, not the first's — and the
trace status is `"failed"` exactly when at least one step failed (so the
`"failed"` status, once set, does persist). -/
theorem error_summary_tracks_last_failure (b : Body) (name : String) (t : ℚ) :
    ((runBodyT b (freshTrace name t)).2).error_summary =
      ((failedSteps ((runBodyT b (freshTrace name t)).2).steps).getLast?).bind
        ExecutionStep.error ∧
    ((runBodyT b (freshTrace name t)).2).status =
      (if (failedSteps ((runBodyT b (freshTrace name t)).2).steps).isEmpty
       then "running" else "failed") :=
  errInv_runBodyT b (freshTrace name t) ⟨rfl, rfl⟩

/-- Two instrumented calls that fail with different exceptions: the first
failure is caught by the enclosing body, the second propagates. -/
def cexBodyC2 : Body :=
  .callCatch (.mk "C" "m1" [] [] [] false false 0 (.raiseExc ⟨"ValueError", "boom"⟩))
    (.ret .none)
    (.callThen (.mk "C" "m2" [] [] [] false false 0 (.raiseExc ⟨"TypeError", "oops"⟩))
      (.ret .none))

/-- Counterexample to C2 as stated: in a trace with two `FAILED` steps,
`error_summary` holds the error string of the **second** failure — the
first failure's string `"ValueError: boom"` was overwritten. -/
theorem error_summary_overwritten_counterexample :
    ((failedSteps ((runBodyT cexBodyC2 (freshTrace "A" 0)).2).steps).map
        ExecutionStep.error) =
      [some "ValueError: boom", some "TypeError: oops"] ∧
    ((runBodyT cexBodyC2 (freshTrace "A" 0)).2).error_summary =
      some "TypeError: oops" ∧
    some "TypeError: oops" ≠ some "ValueError: boom" :=
  ⟨rfl, rfl, by decide⟩

/-- The declarative form of the emission loop's `order` counter: assign
consecutive order values starting at `n` to a list of groups. -/
def assignOrders : List SummaryStep → Nat → List SummaryStep
  | [], _ => []
  | g :: rest, n => { g with order := some n } :: assignOrders rest (n + 1)

/-- The keys of `gs`, resolved to their groups in the given order
(what `for idx in keys: step_data = steps_by_index[idx]` visits; a key
absent from `gs` — impossible for the keys actually emitted — is
skipped). -/
def pairsOf (keys : List Nat) (gs : List (Nat × SummaryStep)) :
    List (Nat × SummaryStep) :=
  match keys with
  | [] => []
  | i :: rest =>
    match gs.lookup i with
    | Option.none => pairsOf rest gs
    | some g => (i, g) :: pairsOf rest gs

/-- The group dict paired with its key, walked in ascending key order
(what `for idx in sorted(steps_by_index.keys())` visits). -/
def sortedPairs (gs : List (Nat × SummaryStep)) : List (Nat × SummaryStep) :=
  pairsOf (List.insertionSort (· ≤ ·) (gs.map Prod.fst)) gs

/-- The groups the emission loop keeps: those whose `"status"` key was
set, i.e. those that received a terminal (`COMPLETED`/`FAILED`) event;
a group holding only a `STARTED` event still has `status = Option.none`
and is dropped. -/
def keptPairs (gs : List (Nat × SummaryStep)) : List (Nat × SummaryStep) :=
  (sortedPairs gs).filter (fun p => p.2.status.isSome)

/-- The emission loop equals: keep the groups with a status, in key
order, and assign consecutive orders from `n`. -/
theorem emitKeys_eq_assignOrders (gs : List (Nat × SummaryStep)) :
    ∀ (keys : List Nat) (n : Nat),
      emitKeys keys gs n =
        assignOrders
          (((pairsOf keys gs).filter (fun p => p.2.status.isSome)).map Prod.snd) n := by
  intro keys
  induction keys with
  | nil => intro n; rfl
  | cons i rest ih =>
    intro n
    rw [emitKeys, pairsOf]
    cases h : gs.lookup i with
    | none => exact ih n
    | some g =>
      cases hst : g.status.isSome with
      | false =>
        simp only [List.filter_cons, hst, Bool.false_eq_true, ite_false]
        exact ih n
      | true =>
        simp only [List.filter_cons, hst, ite_true, List.map_cons, assignOrders]
        exact congrArg _ (ih (n + 1))

/-- `assignOrders` keeps the group list and writes the consecutive
orders `n, n + 1, …` into it. -/
theorem assignOrders_map_order : ∀ (l : List SummaryStep) (n : Nat),
    (assignOrders l n).map SummaryStep.order =
      (List.range l.length).map (fun k => some (n + k)) := by
  intro l
  induction l with
  | nil => intro n; rfl
  | cons g rest ih =>
    intro n
    rw [assignOrders, List.map_cons, ih (n + 1)]
    rw [List.length_cons, List.range_succ_eq_map, List.map_cons, List.map_map]
    refine congrArg₂ _ (by simp) ?_
    apply List.map_congr_left
    intro k _
    simp [Nat.succ_eq_add_one]
    omega

/-- `updateKey` never changes the key list of the group dict. -/
theorem updateKey_map_fst (gs : List (Nat × SummaryStep)) (i : Nat)
    (s : ExecutionStep) : (updateKey gs i s).map Prod.fst = gs.map Prod.fst := by
  unfold updateKey
  rw [List.map_map]
  apply List.map_congr_left
  intro p _
  by_cases h : p.1 = i <;> simp [h]

/-- The grouping loop keeps the key list of the group dict duplicate-free
(a key is appended only when absent). -/
theorem buildGroupsGo_fst_nodup : ∀ (steps : List ExecutionStep)
    (acc : List (Nat × SummaryStep)), (acc.map Prod.fst).Nodup →
    ((buildGroupsGo steps acc).map Prod.fst).Nodup := by
  intro steps
  induction steps with
  | nil => intro acc h; exact h
  | cons s rest ih =>
    intro acc h
    rw [buildGroupsGo]
    apply ih
    rw [updateKey_map_fst]
    cases hk : hasKey acc s.step_index with
    | true => simpa [hk] using h
    | false =>
      have hmem : s.step_index ∉ acc.map Prod.fst := by
        intro hmem
        rcases List.mem_map.mp hmem with ⟨p, hp, hfst⟩
        have : hasKey acc s.step_index = true :=
          List.any_eq_true.mpr ⟨p, hp, by simp [hfst]⟩
        rw [hk] at this
        cases this
      simp only [hk, Bool.false_eq_true, ite_false, List.map_append, List.map_cons,
        List.map_nil]
      exact List.Nodup.append h (List.nodup_singleton _)
        (by simpa [List.disjoint_singleton] using hmem)

/-- `assignOrders` only annotates; it keeps the number of groups. -/
theorem assignOrders_length : ∀ (l : List SummaryStep) (n : Nat),
    (assignOrders l n).length = l.length := by
  intro l
  induction l with
  | nil => intro n; rfl
  | cons g rest ih => intro n; simp [assignOrders, ih (n + 1)]

/-- A key of the group dict always resolves. -/
theorem lookup_isSome_of_mem_fst (i : Nat) :
    ∀ gs : List (Nat × SummaryStep), i ∈ gs.map Prod.fst → (gs.lookup i).isSome := by
  intro gs
  induction gs with
  | nil => intro h; cases h
  | cons p rest ih =>
    obtain ⟨k, v⟩ := p
    intro h
    rw [List.map_cons] at h
    rcases List.mem_cons.mp h with h1 | h1
    · subst h1
      simp [List.lookup]
    · rw [List.lookup]
      cases hik : (i == k) with
      | true => simp
      | false => exact ih h1

/-- Resolving a list of keys that all occur in the group dict keeps the
key list itself. -/
theorem pairsOf_map_fst (gs : List (Nat × SummaryStep)) :
    ∀ keys : List Nat, (∀ i ∈ keys, i ∈ gs.map Prod.fst) →
      (pairsOf keys gs).map Prod.fst = keys := by
  intro keys
  induction keys with
  | nil => intro _; rfl
  | cons i rest ih =>
    intro h
    rw [pairsOf]
    have hs : (gs.lookup i).isSome :=
      lookup_isSome_of_mem_fst i gs (h i (List.mem_cons_self i rest))
    cases hl : gs.lookup i with
    | none => rw [hl] at hs; cases hs
    | some g =>
      rw [List.map_cons]
      exact congrArg _ (ih fun j hj => h j (List.mem_cons_of_mem _ hj))

/-- C7: shape of the summary built by `_get_trace_summary` for any trace.
The emitted `steps` are exactly the groups whose `"status"` key was set,
in ascending `step_index` order, annotated with a 1-based consecutive
`order` field (`assignOrders … 1`); the kept keys are strictly
ascending; the `order` fields read `1, 2, …` in sequence; a group's
`"status"` key is set by `applyStep` exactly on terminal events — a
`STARTED` event leaves it untouched, and a freshly created group has no
status — so a group holding only a `STARTED` event is dropped outright;
and the stored trace status `"running"` is reported as `"completed"`
while any other stored status (in particular `"failed"`) passes
through. -/
theorem summary_builder_shape (cap init : Bool) (nm : String)
    (tr : ExecutionTrace) (now : ℚ) :
    ∃ S, getTraceSummary ⟨cap, nm, init, some tr⟩ now = some S ∧
      S.steps = assignOrders ((keptPairs (buildGroups tr.steps)).map Prod.snd) 1 ∧
      S.steps.map SummaryStep.order =
        (List.range S.steps.length).map (fun k => some (k + 1)) ∧
      ((keptPairs (buildGroups tr.steps)).map Prod.fst).Sorted (· < ·) ∧
      (∀ p ∈ keptPairs (buildGroups tr.steps), p.2.status.isSome) ∧
      (∀ (g : SummaryStep) (s : ExecutionStep), s.status = .started →
        (applyStep g s).status = g.status) ∧
      (∀ (g : SummaryStep) (s : ExecutionStep), isTerminalB s = true →
        ((applyStep g s).status = some "ok" ∨ (applyStep g s).status = some "failed")) ∧
      (∀ s : ExecutionStep,
        ({ cls := s.class_name, method := s.method_name } : SummaryStep).status =
          Option.none) ∧
      S.status = (if tr.status = "running" then "completed" else tr.status) := by
  have hsteps :
      emitKeys (List.insertionSort (· ≤ ·) ((buildGroups tr.steps).map Prod.fst))
          (buildGroups tr.steps) 1 =
        assignOrders ((keptPairs (buildGroups tr.steps)).map Prod.snd) 1 :=
    emitKeys_eq_assignOrders (buildGroups tr.steps) _ 1
  refine ⟨_, rfl, hsteps, ?_, ?_, ?_, ?_, ?_, ?_, rfl⟩
  · rw [hsteps, assignOrders_map_order _ 1, assignOrders_length]
    apply List.map_congr_left
    intro k _
    rw [Nat.add_comm]
  · have h0 : ((buildGroups tr.steps).map Prod.fst).Nodup :=
      buildGroupsGo_fst_nodup tr.steps [] (by simp)
    have hperm :
        List.Perm (List.insertionSort (· ≤ ·) ((buildGroups tr.steps).map Prod.fst))
          ((buildGroups tr.steps).map Prod.fst) :=
      List.perm_insertionSort _ _
    have hsorted :
        (List.insertionSort (· ≤ ·) ((buildGroups tr.steps).map Prod.fst)).Sorted
          (· ≤ ·) :=
      List.sorted_insertionSort _ _
    have hlt :
        (List.insertionSort (· ≤ ·) ((buildGroups tr.steps).map Prod.fst)).Sorted
          (· < ·) :=
      hsorted.lt_of_le (hperm.nodup_iff.mpr h0)
    have hpf :
        (sortedPairs (buildGroups tr.steps)).map Prod.fst =
          List.insertionSort (· ≤ ·) ((buildGroups tr.steps).map Prod.fst) :=
      pairsOf_map_fst (buildGroups tr.steps) _ (fun i hi => hperm.mem_iff.mp hi)
    have hsub : List.Sublist ((keptPairs (buildGroups tr.steps)).map Prod.fst)
        ((sortedPairs (buildGroups tr.steps)).map Prod.fst) :=
      (List.filter_sublist _).map Prod.fst
    rw [hpf] at hsub
    exact hlt.sublist hsub
  · intro p hp
    exact (List.mem_filter.mp hp).2
  · intro g s hs
    simp [applyStep, hs]
  · intro g s hterm
    rcases (by simpa [isTerminalB] using hterm :
        s.status = StepStatus.completed ∨ s.status = StepStatus.failed) with h1 | h1
    · left
      simp [applyStep, h1]
    · right
      simp [applyStep, h1]
  · intro s
    rfl

theorem startedCount_append (i : Nat) (l1 l2 : List ExecutionStep) :
    startedCount i (l1 ++ l2) = startedCount i l1 + startedCount i l2 :=
  List.countP_append _ _ _

theorem termCount_append (i : Nat) (l1 l2 : List ExecutionStep) :
    termCount i (l1 ++ l2) = termCount i l1 + termCount i l2 :=
  List.countP_append _ _ _

theorem startedCount_eq_zero (i : Nat) (l : List ExecutionStep)
    (h : ∀ s ∈ l, s.step_index ≠ i) : startedCount i l = 0 := by
  apply List.countP_eq_zero.mpr
  intro s hs
  simp [h s hs]

theorem termCount_eq_zero (i : Nat) (l : List ExecutionStep)
    (h : ∀ s ∈ l, s.step_index ≠ i) : termCount i l = 0 := by
  apply List.countP_eq_zero.mpr
  intro s hs
  simp [h s hs]

/-- A `STARTED` step contributes to no terminal count. -/
theorem termCount_singleton_started (i : Nat) (s : ExecutionStep)
    (h : s.status = .started) : termCount i [s] = 0 := by
  simp [termCount, List.countP_singleton, isTerminalB, h]

/-- A terminal step contributes to no started count. -/
theorem startedCount_singleton_terminal (i : Nat) (s : ExecutionStep)
    (h : isTerminalB s = true) : startedCount i [s] = 0 := by
  rcases (by simpa [isTerminalB] using h :
      s.status = StepStatus.completed ∨ s.status = StepStatus.failed) with h1 | h1 <;>
    simp [startedCount, List.countP_singleton, h1]

/-- The well-pairing invariant of the segment of steps one traced run
appends when the trace already holds `n` steps: every index in the
segment is fresh (at least `n`, below `n` plus the segment length); for
every index the segment holds as many terminal steps as `STARTED` steps,
and at most one `STARTED` step; and in every prefix of the segment no
index has more terminal steps than `STARTED` steps (a terminal step never
precedes its `STARTED` step). -/
def SegProp (n : Nat) (seg : List ExecutionStep) : Prop :=
  (∀ s ∈ seg, n ≤ s.step_index ∧ s.step_index < n + seg.length) ∧
  (∀ i, startedCount i seg = termCount i seg) ∧
  (∀ i, startedCount i seg ≤ 1) ∧
  (∀ i p, termCount i (seg.take p) ≤ startedCount i (seg.take p))

theorem SegProp_nil (n : Nat) : SegProp n [] := by
  refine ⟨?_, ?_, ?_, ?_⟩
  · intro s hs; cases hs
  · intro i; rfl
  · intro i; exact Nat.zero_le _
  · intro i p; simp [startedCount, termCount]

theorem SegProp_append (n : Nat) (s1 s2 : List ExecutionStep)
    (h1 : SegProp n s1) (h2 : SegProp (n + s1.length) s2) :
    SegProp n (s1 ++ s2) := by
  obtain ⟨hr1, he1, ho1, hp1⟩ := h1
  obtain ⟨hr2, he2, ho2, hp2⟩ := h2
  refine ⟨?_, ?_, ?_, ?_⟩
  · intro s hs
    rw [List.length_append]
    rcases List.mem_append.mp hs with hm | hm
    · have := hr1 s hm; omega
    · have := hr2 s hm; omega
  · intro i
    rw [startedCount_append, termCount_append, he1 i, he2 i]
  · intro i
    rw [startedCount_append]
    rcases Nat.eq_zero_or_pos (startedCount i s1) with hz | hpos
    · rw [hz, Nat.zero_add]; exact ho2 i
    · have hz2 : startedCount i s2 = 0 := by
        apply startedCount_eq_zero
        intro s hs
        obtain ⟨a, hmem, hpred⟩ := List.countP_pos.mp hpos
        have hidx : a.step_index = i := by
          have hb := (Bool.and_eq_true _ _).mp hpred
          exact beq_iff_eq.mp hb.2
        have hup : a.step_index < n + s1.length := (hr1 a hmem).2
        have hlow : n + s1.length ≤ s.step_index := (hr2 s hs).1
        omega
      rw [hz2]
      have := ho1 i
      omega
  · intro i p
    rw [List.take_append_eq_append_take, startedCount_append, termCount_append]
    exact Nat.add_le_add (hp1 i p) (hp2 i (p - s1.length))

theorem termCount_take_le (i : Nat) (l : List ExecutionStep) (k : Nat) :
    termCount i (l.take k) ≤ termCount i l :=
  (List.take_sublist k l).countP_le _

theorem startedCount_take_le (i : Nat) (l : List ExecutionStep) (k : Nat) :
    startedCount i (l.take k) ≤ startedCount i l :=
  (List.take_sublist k l).countP_le _

/-- The wrapper's bracketing preserves the pairing invariant: a `STARTED`
step at the fresh index `n`, then the nested segment (all of whose
indices are above `n`), then the matching terminal step at `n`. -/
theorem SegProp_wrap (n : Nat) (s0 s1 : ExecutionStep) (inner : List ExecutionStep)
    (hs0 : s0.status = .started) (hs0i : s0.step_index = n)
    (hs1 : isTerminalB s1 = true) (hs1i : s1.step_index = n)
    (hinner : SegProp (n + 1) inner) :
    SegProp n (s0 :: (inner ++ [s1])) := by
  obtain ⟨hr, he, ho, hp⟩ := hinner
  have hInnNe : ∀ s ∈ inner, s.step_index ≠ n := by
    intro s hs
    have := (hr s hs).1
    omega
  have hs0n : startedCount n [s0] = 1 := by
    simp [startedCount, List.countP_singleton, hs0, hs0i]
  have hs0ne : ∀ i, i ≠ n → startedCount i [s0] = 0 := by
    intro i hi
    apply startedCount_eq_zero
    intro s hs
    rw [List.mem_singleton] at hs
    subst hs
    rw [hs0i]
    omega
  have hterm_s0 : ∀ i, termCount i [s0] = 0 := fun i =>
    termCount_singleton_started i s0 hs0
  have hs1n : termCount n [s1] = 1 := by
    simp [termCount, List.countP_singleton, hs1, hs1i]
  have hs1ne : ∀ i, i ≠ n → termCount i [s1] = 0 := by
    intro i hi
    apply termCount_eq_zero
    intro s hs
    rw [List.mem_singleton] at hs
    subst hs
    rw [hs1i]
    omega
  have hstart_s1 : ∀ i, startedCount i [s1] = 0 := fun i =>
    startedCount_singleton_terminal i s1 hs1
  have hInnS : startedCount n inner = 0 := startedCount_eq_zero _ _ hInnNe
  have hInnT : termCount n inner = 0 := termCount_eq_zero _ _ hInnNe
  refine ⟨?_, ?_, ?_, ?_⟩
  · intro s hs
    simp only [List.length_cons, List.length_append, List.length_singleton]
    rcases List.mem_cons.mp hs with h1 | h1
    · subst h1; rw [hs0i]; omega
    · rcases List.mem_append.mp h1 with h2 | h2
      · have := hr s h2; omega
      · rw [List.mem_singleton] at h2; subst h2; rw [hs1i]; omega
  · intro i
    rw [show s0 :: (inner ++ [s1]) = [s0] ++ (inner ++ [s1]) from rfl,
      startedCount_append, startedCount_append, termCount_append, termCount_append]
    by_cases hi : i = n
    · rw [hi, hs0n, hstart_s1 n, hInnS, hterm_s0 n, hInnT, hs1n]
    · rw [hs0ne i hi, hstart_s1 i, hterm_s0 i, hs1ne i hi, he i]
  · intro i
    rw [show s0 :: (inner ++ [s1]) = [s0] ++ (inner ++ [s1]) from rfl,
      startedCount_append, startedCount_append]
    by_cases hi : i = n
    · rw [hi, hs0n, hstart_s1 n, hInnS]
    · rw [hs0ne i hi, hstart_s1 i]
      have := ho i
      omega
  · intro i p
    cases p with
    | zero => simp [startedCount, termCount]
    | succ q =>
      rw [show (s0 :: (inner ++ [s1])).take (q + 1) =
            s0 :: ((inner ++ [s1]).take q) from rfl,
        List.take_append_eq_append_take,
        show s0 :: (inner.take q ++ [s1].take (q - inner.length)) =
            [s0] ++ (inner.take q ++ [s1].take (q - inner.length)) from rfl,
        startedCount_append, startedCount_append, termCount_append, termCount_append]
      by_cases hi : i = n
      · rw [hi]
        have ht1 : termCount n (inner.take q) = 0 :=
          termCount_eq_zero _ _ (fun s hs => hInnNe s (List.mem_of_mem_take hs))
        have ha1 : startedCount n (inner.take q) = 0 :=
          startedCount_eq_zero _ _ (fun s hs => hInnNe s (List.mem_of_mem_take hs))
        have ht2 : termCount n ([s1].take (q - inner.length)) ≤ 1 := by
          have h := termCount_take_le n [s1] (q - inner.length)
          omega
        have ha2 : startedCount n ([s1].take (q - inner.length)) = 0 := by
          have h := startedCount_take_le n [s1] (q - inner.length)
          have h0 := hstart_s1 n
          omega
        rw [hterm_s0 n, hs0n, ht1, ha1, ha2]
        omega
      · have ht2 : termCount i ([s1].take (q - inner.length)) = 0 := by
          have h := termCount_take_le i [s1] (q - inner.length)
          have h0 := hs1ne i hi
          omega
        have ha2 : startedCount i ([s1].take (q - inner.length)) = 0 := by
          have h := startedCount_take_le i [s1] (q - inner.length)
          have h0 := hstart_s1 i
          omega
        rw [hterm_s0 i, hs0ne i hi, ht2, ha2]
        have := hp i q
        omega

mutual
/-- Each traced call appends one well-paired segment: a `STARTED` step at
the fresh index (the current step count), the nested calls' segment, and
the matching terminal step. -/
theorem SegProp_runCallT : ∀ (c : TCall) (tr : ExecutionTrace),
    ∃ seg, (runCallT c tr).2.steps = tr.steps ++ seg ∧
      SegProp tr.steps.length seg
  | .mk cls meth params args kwargs ci co dur body, tr => by
    simp only [runCallT]
    split
    next v tr2 heq =>
      obtain ⟨inner, hsteps, hinner⟩ := SegProp_runBodyT body
        { tr with steps := tr.steps ++ [mkStarted cls meth tr.steps.length
            (if ci then some (extractArgs params (PyVal.obj cls :: args) kwargs)
             else Option.none)] }
      rw [heq] at hsteps
      dsimp only at hsteps hinner
      rw [List.length_append, List.length_singleton] at hinner
      refine ⟨mkStarted cls meth tr.steps.length
          (if ci then some (extractArgs params (PyVal.obj cls :: args) kwargs)
           else Option.none) ::
          (inner ++ [mkCompleted cls meth tr.steps.length
            (if co then some (serializeValue v 3 1000) else Option.none) dur]), ?_, ?_⟩
      · show tr2.steps ++ [mkCompleted cls meth tr.steps.length
            (if co then some (serializeValue v 3 1000) else Option.none) dur] = _
        rw [hsteps]
        simp [List.append_assoc]
      · exact SegProp_wrap tr.steps.length _ _ inner rfl rfl rfl rfl hinner
    next e tr2 heq =>
      obtain ⟨inner, hsteps, hinner⟩ := SegProp_runBodyT body
        { tr with steps := tr.steps ++ [mkStarted cls meth tr.steps.length
            (if ci then some (extractArgs params (PyVal.obj cls :: args) kwargs)
             else Option.none)] }
      rw [heq] at hsteps
      dsimp only at hsteps hinner
      rw [List.length_append, List.length_singleton] at hinner
      refine ⟨mkStarted cls meth tr.steps.length
          (if ci then some (extractArgs params (PyVal.obj cls :: args) kwargs)
           else Option.none) ::
          (inner ++ [mkFailed cls meth tr.steps.length
            (e.typeName ++ ": " ++ e.msg) dur]), ?_, ?_⟩
      · show tr2.steps ++ [mkFailed cls meth tr.steps.length
            (e.typeName ++ ": " ++ e.msg) dur] = _
        rw [hsteps]
        simp [List.append_assoc]
      · exact SegProp_wrap tr.steps.length _ _ inner rfl rfl rfl rfl hinner

/-- Running a body appends a well-paired segment. -/
theorem SegProp_runBodyT : ∀ (b : Body) (tr : ExecutionTrace),
    ∃ seg, (runBodyT b tr).2.steps = tr.steps ++ seg ∧
      SegProp tr.steps.length seg
  | .ret v, tr => ⟨[], by simp [runBodyT], SegProp_nil _⟩
  | .raiseExc e, tr => ⟨[], by simp [runBodyT], SegProp_nil _⟩
  | .callThen c onOk, tr => by
    have hc := SegProp_runCallT c tr
    simp only [runBodyT]
    split
    next v tr1 heq =>
      obtain ⟨seg1, h1, hs1⟩ := hc
      rw [heq] at h1
      dsimp only at h1
      obtain ⟨seg2, h2, hs2⟩ := SegProp_runBodyT onOk tr1
      refine ⟨seg1 ++ seg2, ?_, ?_⟩
      · rw [h2, h1, List.append_assoc]
      · have hlen : tr1.steps.length = tr.steps.length + seg1.length := by
          rw [h1, List.length_append]
        rw [hlen] at hs2
        exact SegProp_append _ _ _ hs1 hs2
    next e tr1 heq =>
      obtain ⟨seg1, h1, hs1⟩ := hc
      rw [heq] at h1
      dsimp only at h1
      exact ⟨seg1, h1, hs1⟩
  | .callCatch c onOk onExc, tr => by
    have hc := SegProp_runCallT c tr
    simp only [runBodyT]
    split
    next v tr1 heq =>
      obtain ⟨seg1, h1, hs1⟩ := hc
      rw [heq] at h1
      dsimp only at h1
      obtain ⟨seg2, h2, hs2⟩ := SegProp_runBodyT onOk tr1
      refine ⟨seg1 ++ seg2, ?_, ?_⟩
      · rw [h2, h1, List.append_assoc]
      · have hlen : tr1.steps.length = tr.steps.length + seg1.length := by
          rw [h1, List.length_append]
        rw [hlen] at hs2
        exact SegProp_append _ _ _ hs1 hs2
    next e tr1 heq =>
      obtain ⟨seg1, h1, hs1⟩ := hc
      rw [heq] at h1
      dsimp only at h1
      obtain ⟨seg2, h2, hs2⟩ := SegProp_runBodyT onExc tr1
      refine ⟨seg1 ++ seg2, ?_, ?_⟩
      · rw [h2, h1, List.append_assoc]
      · have hlen : tr1.steps.length = tr.steps.length + seg1.length := by
          rw [h1, List.length_append]
        rw [hlen] at hs2
        exact SegProp_append _ _ _ hs1 hs2
end

/-- C4: for every sequence of instrumented calls on one traced instance
(nested calls included), run from a freshly initialized trace: for every
index `i`, the step list holds exactly as many terminal (`COMPLETED` or
`FAILED`) steps with `step_index = i` as `STARTED` steps with that index;
it never holds two `STARTED` steps with the same index (so no index is
reused for two distinct calls); and in every prefix of the step list
terminal steps with index `i` never outnumber `STARTED` steps with index
`i` (each `STARTED` step's index reappears exactly once more, later, on
one terminal step). -/
theorem step_index_pairing (b : Body) (name : String) (t : ℚ) :
    (∀ i, startedCount i ((runBodyT b (freshTrace name t)).2).steps =
      termCount i ((runBodyT b (freshTrace name t)).2).steps) ∧
    (∀ i, startedCount i ((runBodyT b (freshTrace name t)).2).steps ≤ 1) ∧
    (∀ i p, termCount i (((runBodyT b (freshTrace name t)).2).steps.take p) ≤
      startedCount i (((runBodyT b (freshTrace name t)).2).steps.take p)) := by
  obtain ⟨seg, hsteps, hseg⟩ := SegProp_runBodyT b (freshTrace name t)
  have hnil : (freshTrace name t).steps = [] := rfl
  rw [hnil, List.nil_append] at hsteps
  rw [hsteps]
  exact ⟨hseg.2.1, hseg.2.2.1, hseg.2.2.2⟩
